import Mathlib

/-!
# Verification of the `rust-cache-benchmark` repository

Shallow embedding of the benchmark harness in `src/main.rs` together with
the adapter trait of `src/cache.rs` and the record type of `src/result.rs`.

Modelling choices:

* The cache trait `Cache` (`src/cache.rs`, lines 9-15) is generic in the
  backend; we embed it as a `CacheModel σ V`: a state type `σ` with a pure
  `get : σ → ℕ → Option V` and `set : σ → ℕ → V → σ`.  `bench_cache` is
  generic over the backend in the source, so every theorem below is
  quantified over an arbitrary `CacheModel`.
* The concurrent run of `bench_cache` (`src/main.rs`, lines 32-76) is
  embedded as an interleaving semantics: each worker thread's next cache
  call (one `get_key`, or the `set_key` that follows a miss, or the final
  merge of the local hit count into the shared counter) is one atomic
  step, and a `schedule : List ℕ` picks which thread moves.  All results
  are proved for every schedule, hence for every interleaving.
* Machine integers (`usize`, `u64`) are embedded as `ℕ`; the arithmetic in
  the worker loop cannot overflow for the constants involved, and the
  `%` in the key expression is `Nat.mod`.  `saturating_sub` is `Nat.sub`.
* `f64` quantities derived by division are embedded as exact rationals
  (`ℚ`) — a real-valued idealization of float rounding — except for
  `ops_per_sec`, whose divisor (the elapsed time) can be zero: there we
  keep the IEEE-754 behaviour of division explicit via `FloatVal`, with
  `x / 0 = +∞` for `x > 0`.
* Wall-clock time and process memory readings are external inputs of the
  program; they enter the embedding as parameters (`elapsedMillis`,
  `elapsedSecs`, `initMemReading`, `finMemReading`).
-/

namespace CacheBench

/-- `CACHE_SIZE`, `src/main.rs` line 105. -/
def CACHE_SIZE : ℕ := 10000

/-- `NUM_THREADS`, `src/main.rs` line 106. -/
def NUM_THREADS : ℕ := 8

/-- `OPS_PER_THREAD`, `src/main.rs` line 107. -/
def OPS_PER_THREAD : ℕ := 100000

/-- A benchmark configuration: the three constants `bench_cache` reads.
Kept as parameters so that properties can be stated for all values as the
spec does; `progConfig` instantiates them with the program's constants. -/
structure Config where
  threads : ℕ
  opsPerThread : ℕ
  cacheSize : ℕ
  deriving DecidableEq

/-- The configuration compiled into the program (`src/main.rs` 105-107). -/
def progConfig : Config := ⟨NUM_THREADS, OPS_PER_THREAD, CACHE_SIZE⟩

/-- The workload generator, `src/main.rs` line 58:
`let key = (i + thread_id * OPS_PER_THREAD) % (CACHE_SIZE * 2);`. -/
def genKey (cfg : Config) (threadId i : ℕ) : ℕ :=
  (i + threadId * cfg.opsPerThread) % (cfg.cacheSize * 2)

/-- The adapter trait of `src/cache.rs` (lines 9-15): a backend is a state
type `σ` with pure `get_key`/`set_key` transitions; values of type `V`. -/
structure CacheModel (σ V : Type) where
  get : σ → ℕ → Option V
  set : σ → ℕ → V → σ

/-- The thread-local state of one worker of `bench_cache`
(`src/main.rs` lines 34-74): loop counter `i`, `local_hits`,
`local_unique_keys`, plus bookkeeping for the interleaving semantics:
`pendingSet` holds the key whose miss is waiting for its `set_key` call,
`setCount` counts the `set_key` calls issued, and `merged` records whether
the final merge into the shared hit counter has happened. -/
structure ThreadState where
  opIdx : ℕ
  localHits : ℕ
  setCount : ℕ
  pendingSet : Option ℕ
  localUnique : Finset ℕ
  merged : Bool
  deriving DecidableEq

instance : Inhabited ThreadState := ⟨⟨0, 0, 0, none, ∅, false⟩⟩

/-- The shared state of one `bench_cache` run: the shared cache handle,
the shared `hit_counter` (`src/main.rs` line 25) and the per-worker
states (`rayon` gives one worker per `thread_id` in `0..NUM_THREADS`). -/
structure RunState (σ : Type) where
  cache : σ
  hitCounter : ℕ
  workers : List ThreadState
  deriving DecidableEq

/-- One atomic step of worker `t`: resolve a pending miss by calling
`set_key(key, value_gen(key))` (`src/main.rs` lines 66-67), or perform the
next iteration's `local_unique_keys.insert(key)` plus `get_key` call
(lines 58-64), or — once the loop is done — merge `local_hits` into the
shared counter (lines 71-72).  A finished worker, or a thread id outside
`0..threads`, does nothing. -/
def step {σ V : Type} (cfg : Config) (M : CacheModel σ V) (valueGen : ℕ → V)
    (s : RunState σ) (t : ℕ) : RunState σ :=
  if t < cfg.threads then
    let ts := s.workers.getD t default
    match ts.pendingSet with
    | some k =>
        let ts' := { ts with pendingSet := none, opIdx := ts.opIdx + 1,
                             setCount := ts.setCount + 1 }
        { cache := M.set s.cache k (valueGen k)
          hitCounter := s.hitCounter
          workers := s.workers.set t ts' }
    | none =>
        if ts.opIdx < cfg.opsPerThread then
          let key := genKey cfg t ts.opIdx
          match M.get s.cache key with
          | some _ =>
              let ts' := { ts with localUnique := insert key ts.localUnique,
                                   localHits := ts.localHits + 1,
                                   opIdx := ts.opIdx + 1 }
              { s with workers := s.workers.set t ts' }
          | none =>
              let ts' := { ts with localUnique := insert key ts.localUnique,
                                   pendingSet := some key }
              { s with workers := s.workers.set t ts' }
        else if ts.merged then s
        else
          let ts' := { ts with merged := true }
          { s with hitCounter := s.hitCounter + ts.localHits,
                   workers := s.workers.set t ts' }
  else s

/-- The state at the start of a run: the supplied cache handle, shared
hit counter `0`, and `threads` fresh workers. -/
def initState {σ : Type} (cfg : Config) (cache₀ : σ) : RunState σ :=
  ⟨cache₀, 0, List.replicate cfg.threads default⟩

/-- The run reached by executing a given interleaving `sched`. -/
def run {σ V : Type} (cfg : Config) (M : CacheModel σ V) (valueGen : ℕ → V)
    (cache₀ : σ) (sched : List ℕ) : RunState σ :=
  sched.foldl (step cfg M valueGen) (initState cfg cache₀)

/-- A run is completed when every worker has finished its loop and merged
its local hit count (the `rayon` collect at `src/main.rs` line 76 returns
only then). -/
def completedRun (cfg : Config) {σ : Type} (s : RunState σ) : Prop :=
  ∀ t, t < cfg.threads → (s.workers.getD t default).merged = true

instance (cfg : Config) {σ : Type} (s : RunState σ) :
    Decidable (completedRun cfg s) := by
  unfold completedRun; infer_instance

/-- Idealized `f64` value: an exact rational, `+∞` or `NaN`.  Only the
values reachable from the nonnegative quantities of `bench_cache` are
represented. -/
inductive FloatVal : Type
  | finite (q : ℚ)
  | posInf
  | nan
  deriving DecidableEq

/-- IEEE-754 division restricted to the nonnegative operands occurring in
`bench_cache`: a positive finite value divided by zero is `+∞`, `0.0/0.0`
is `NaN`, and finite divisions are exact (rounding idealized away). -/
def fdiv : FloatVal → FloatVal → FloatVal
  | .finite a, .finite b =>
      if b = 0 then (if a = 0 then .nan else .posInf) else .finite (a / b)
  | .finite _, .posInf => .finite 0
  | .posInf, .finite _ => .posInf
  | _, _ => .nan

/-- `src/main.rs` line 101: `total_ops as f64 / elapsed.as_secs_f64()`.
No guard on a zero elapsed time precedes this division. -/
def benchOpsPerSec (totalOps : ℕ) (elapsedSecs : ℚ) : FloatVal :=
  fdiv (.finite (totalOps : ℚ)) (.finite elapsedSecs)

/-- `src/main.rs` lines 29, 92-93: each `memory_stats()` reading is mapped
to its `physical_mem` and defaulted to `0` when unavailable
(`unwrap_or(0)`), then `memory_used = final_mem.saturating_sub(initial_mem)`
(`Nat` subtraction is saturating subtraction). -/
def memoryUsed (initMemReading finMemReading : Option ℕ) : ℕ :=
  (finMemReading.getD 0) - (initMemReading.getD 0)

/-- `BenchResult`, `src/result.rs` lines 3-20. -/
structure BenchResult where
  name : String
  hit_rate : ℚ
  ops_per_sec : FloatVal
  total_entries : ℕ
  total_time : ℕ
  memory_mb : ℚ
  deriving DecidableEq

/-- The record built at `src/main.rs` lines 78-102 from the final state of
a run: `hits` is the shared counter, `unique_keys` is the fold-union of
the per-worker sets (lines 81-84), `total_entries` its size, and the
derived fields are computed exactly as in the source.  Elapsed time and
the two memory readings are external inputs. -/
def benchCache {σ V : Type} (cfg : Config) (M : CacheModel σ V)
    (valueGen : ℕ → V) (cache₀ : σ) (sched : List ℕ) (name : String)
    (elapsedMillis : ℕ) (elapsedSecs : ℚ)
    (initMemReading finMemReading : Option ℕ) : BenchResult :=
  let s := run cfg M valueGen cache₀ sched
  let totalOps := cfg.threads * cfg.opsPerThread
  let uniqueKeys := (s.workers.map ThreadState.localUnique).foldl (· ∪ ·) ∅
  { name := name
    total_entries := uniqueKeys.card
    total_time := elapsedMillis
    hit_rate := (s.hitCounter : ℚ) / (totalOps : ℚ)
    memory_mb := (memoryUsed initMemReading finMemReading : ℚ) / 1024 / 1024
    ops_per_sec := benchOpsPerSec totalOps elapsedSecs }

/-- A degenerate but contract-conforming backend used to witness the run
hypotheses of the theorems below: it retains nothing, so every `get_key`
misses (the adapter contract of §4.1 explicitly allows a backend to
retain no value). -/
def unitModel : CacheModel Unit Unit :=
  ⟨fun _ _ => none, fun _ _ _ => ()⟩

/-- The value generator used with `unitModel` in witnesses. -/
def unitValue : ℕ → Unit := fun _ => ()

/-- The steps thread `t` needs to run its whole loop against `unitModel`
(two per iteration: the missing `get` and the following `set`) and then
merge. -/
def seqBlock (cfg : Config) (t : ℕ) : List ℕ :=
  List.replicate (2 * cfg.opsPerThread) t ++ [t]

/-- A canonical completing schedule: each thread in turn runs its whole
loop and then merges. -/
def seqSched (cfg : Config) : List ℕ :=
  (List.range cfg.threads).flatMap (seqBlock cfg)

/-- The configuration of the end-to-end scenario of §8:
capacity 4, 2 threads, 4 operations per thread. -/
def cfg8 : Config := ⟨2, 4, 4⟩

/-- Invariant for the §8 scenario, relative to an abstract membership
predicate `mem` for the backend: no worker has ever hit, and every key
held by the cache was inserted by the unique iteration `(t, j)` that
generates it — which that worker has already passed. -/
def C8Inv {σ : Type} (mem : σ → ℕ → Prop) (s : RunState σ) : Prop :=
  (∀ t, t < 2 → (s.workers.getD t default).localHits = 0) ∧
  (∀ k, mem s.cache k →
    ∃ t j, t < 2 ∧ j < 4 ∧ k = j + 4 * t ∧
      j < (s.workers.getD t default).opIdx)

/-! ## List helpers -/

theorem getD_set_self {α : Type} (l : List α) (t : ℕ) (x d : α)
    (h : t < l.length) : (l.set t x).getD t d = x := by
  induction l generalizing t with
  | nil => simp at h
  | cons a l ih =>
    cases t with
    | zero => simp
    | succ n => simpa using ih n (by simpa using h)

theorem getD_set_ne {α : Type} (l : List α) (t u : ℕ) (x d : α)
    (h : t ≠ u) : (l.set t x).getD u d = l.getD u d := by
  induction l generalizing t u with
  | nil => simp
  | cons a l ih =>
    cases t with
    | zero =>
      cases u with
      | zero => exact absurd rfl h
      | succ m => simp
    | succ n =>
      cases u with
      | zero => simp
      | succ m => simpa using ih n m (fun hx => h (by omega))

theorem getD_replicate {α : Type} (n t : ℕ) (a d : α) (h : t < n) :
    (List.replicate n a).getD t d = a := by
  induction n generalizing t with
  | zero => omega
  | succ m ih =>
    cases t with
    | zero => simp [List.replicate]
    | succ u => simpa [List.replicate] using ih u (by omega)

theorem sum_map_set {α : Type} (f : α → ℕ) (l : List α) (t : ℕ) (x d : α)
    (h : t < l.length) :
    ((l.set t x).map f).sum + f (l.getD t d) = (l.map f).sum + f x := by
  induction l generalizing t with
  | nil => simp at h
  | cons a l ih =>
    cases t with
    | zero => simp; omega
    | succ n =>
      have := ih n (by simpa using h)
      simp only [List.set, List.map, List.sum_cons, List.getD_cons_succ]
      omega

theorem sum_map_set_congr {α : Type} (f : α → ℕ) (l : List α) (t : ℕ)
    (x d : α) (h : t < l.length) (hf : f x = f (l.getD t d)) :
    ((l.set t x).map f).sum = (l.map f).sum := by
  have := sum_map_set f l t x d h
  omega

theorem mem_foldl_union (l : List (Finset ℕ)) (init : Finset ℕ) (x : ℕ) :
    x ∈ l.foldl (· ∪ ·) init ↔ x ∈ init ∨ ∃ s ∈ l, x ∈ s := by
  induction l generalizing init with
  | nil => simp
  | cons a l ih =>
    simp only [List.foldl_cons, ih, Finset.mem_union, List.mem_cons]
    constructor
    · rintro (⟨hx | hx⟩ | ⟨s, hs, hx⟩)
      · exact Or.inl hx
      · exact Or.inr ⟨a, Or.inl rfl, hx⟩
      · exact Or.inr ⟨s, Or.inr hs, hx⟩
    · rintro (hx | ⟨s, rfl | hs, hx⟩)
      · exact Or.inl (Or.inl hx)
      · exact Or.inl (Or.inr hx)
      · exact Or.inr ⟨s, hs, hx⟩

theorem foldl_union_eq_biUnion (l : List (Finset ℕ)) :
    l.foldl (· ∪ ·) ∅ = (Finset.range l.length).biUnion (fun i => l.getD i ∅) := by
  ext x
  rw [mem_foldl_union]
  simp only [Finset.not_mem_empty, false_or, Finset.mem_biUnion, Finset.mem_range]
  constructor
  · rintro ⟨s, hs, hx⟩
    obtain ⟨i, hi, rfl⟩ := List.mem_iff_getElem.mp hs
    exact ⟨i, hi, by rwa [List.getD_eq_getElem l ∅ hi]⟩
  · rintro ⟨i, hi, hx⟩
    exact ⟨l[i], List.getElem_mem hi, by rwa [List.getD_eq_getElem l ∅ hi] at hx⟩

/-! ## Unfolding equations for `step` -/

theorem step_oob {σ V : Type} (cfg : Config) (M : CacheModel σ V)
    (valueGen : ℕ → V) (s : RunState σ) (t : ℕ) (ht : ¬ t < cfg.threads) :
    step cfg M valueGen s t = s := by
  simp only [step, if_neg ht]

theorem step_pending {σ V : Type} (cfg : Config) (M : CacheModel σ V)
    (valueGen : ℕ → V) (s : RunState σ) (t k : ℕ) (ht : t < cfg.threads)
    (hp : (s.workers.getD t default).pendingSet = some k) :
    step cfg M valueGen s t =
      { cache := M.set s.cache k (valueGen k)
        hitCounter := s.hitCounter
        workers := s.workers.set t
            { s.workers.getD t default with
              pendingSet := none
              opIdx := (s.workers.getD t default).opIdx + 1
              setCount := (s.workers.getD t default).setCount + 1 } } := by
  simp only [step, if_pos ht, hp]

theorem step_hit {σ V : Type} (cfg : Config) (M : CacheModel σ V)
    (valueGen : ℕ → V) (s : RunState σ) (t : ℕ) (v : V) (ht : t < cfg.threads)
    (hp : (s.workers.getD t default).pendingSet = none)
    (hi : (s.workers.getD t default).opIdx < cfg.opsPerThread)
    (hg : M.get s.cache (genKey cfg t (s.workers.getD t default).opIdx) = some v) :
    step cfg M valueGen s t =
      { s with
        workers := s.workers.set t
            { s.workers.getD t default with
              localUnique := insert (genKey cfg t (s.workers.getD t default).opIdx)
                (s.workers.getD t default).localUnique
              localHits := (s.workers.getD t default).localHits + 1
              opIdx := (s.workers.getD t default).opIdx + 1 } } := by
  simp only [step, if_pos ht, hp, if_pos hi, hg]

theorem step_miss {σ V : Type} (cfg : Config) (M : CacheModel σ V)
    (valueGen : ℕ → V) (s : RunState σ) (t : ℕ) (ht : t < cfg.threads)
    (hp : (s.workers.getD t default).pendingSet = none)
    (hi : (s.workers.getD t default).opIdx < cfg.opsPerThread)
    (hg : M.get s.cache (genKey cfg t (s.workers.getD t default).opIdx) = none) :
    step cfg M valueGen s t =
      { s with
        workers := s.workers.set t
            { s.workers.getD t default with
              localUnique := insert (genKey cfg t (s.workers.getD t default).opIdx)
                (s.workers.getD t default).localUnique
              pendingSet := some (genKey cfg t (s.workers.getD t default).opIdx) } } := by
  simp only [step, if_pos ht, hp, if_pos hi, hg]

theorem step_merge {σ V : Type} (cfg : Config) (M : CacheModel σ V)
    (valueGen : ℕ → V) (s : RunState σ) (t : ℕ) (ht : t < cfg.threads)
    (hp : (s.workers.getD t default).pendingSet = none)
    (hi : ¬ (s.workers.getD t default).opIdx < cfg.opsPerThread)
    (hm : (s.workers.getD t default).merged = false) :
    step cfg M valueGen s t =
      { s with hitCounter := s.hitCounter + (s.workers.getD t default).localHits
               workers := s.workers.set t
                 { s.workers.getD t default with merged := true } } := by
  simp only [step, if_pos ht, hp, if_neg hi, hm]
  simp

theorem step_done {σ V : Type} (cfg : Config) (M : CacheModel σ V)
    (valueGen : ℕ → V) (s : RunState σ) (t : ℕ) (ht : t < cfg.threads)
    (hp : (s.workers.getD t default).pendingSet = none)
    (hi : ¬ (s.workers.getD t default).opIdx < cfg.opsPerThread)
    (hm : (s.workers.getD t default).merged = true) :
    step cfg M valueGen s t = s := by
  simp only [step, if_pos ht, hp, if_neg hi, hm]
  simp

/-! ## Run invariants -/

/-- The summand a worker contributes to the shared hit counter: its local
hit count once merged, nothing before. -/
def mergedHits (ts : ThreadState) : ℕ :=
  if ts.merged then ts.localHits else 0

/-- Invariant of one worker's state: the loop counter is bounded, every
iteration so far was exactly a hit or a miss-plus-set, a pending `set_key`
belongs to the current iteration, a merged worker has finished its loop,
and the unique-key set is exactly the generator's image over the
iterations whose `insert` has run. -/
structure WInv (cfg : Config) (t : ℕ) (ts : ThreadState) : Prop where
  opIdx_le : ts.opIdx ≤ cfg.opsPerThread
  hits_add_sets : ts.localHits + ts.setCount = ts.opIdx
  pending_eq : ∀ k, ts.pendingSet = some k →
    k = genKey cfg t ts.opIdx ∧ ts.opIdx < cfg.opsPerThread
  merged_done : ts.merged = true →
    ts.opIdx = cfg.opsPerThread ∧ ts.pendingSet = none
  unique_eq : ts.localUnique =
    (Finset.range (ts.opIdx + if ts.pendingSet.isSome then 1 else 0)).image
      (genKey cfg t)

/-- Global invariant of a run state: one worker per thread id, each
satisfying `WInv`, and the shared counter holds exactly the merged
workers' local hit counts. -/
structure GInv (cfg : Config) {σ : Type} (s : RunState σ) : Prop where
  len : s.workers.length = cfg.threads
  winv : ∀ t, t < cfg.threads → WInv cfg t (s.workers.getD t default)
  hitc : s.hitCounter = (s.workers.map mergedHits).sum

theorem WInv_init (cfg : Config) (t : ℕ) : WInv cfg t default := by
  refine ⟨?_, ?_, ?_, ?_, ?_⟩ <;> simp [default]

theorem initState_GInv {σ : Type} (cfg : Config) (cache₀ : σ) :
    GInv cfg (initState cfg cache₀) := by
  refine ⟨by simp [initState], ?_, ?_⟩
  · intro t ht
    rw [initState, getD_replicate _ _ _ _ ht]
    exact WInv_init cfg t
  · simp [initState, mergedHits, default]

theorem mergedHits_false (ts : ThreadState) (h : ts.merged = false) :
    mergedHits ts = 0 := by
  simp [mergedHits, h]

theorem sum_unchanged (cfg : Config) {σ : Type} (s : RunState σ)
    (h : GInv cfg s) (t : ℕ) (htl : t < s.workers.length) (ts' : ThreadState)
    (hf : mergedHits ts' = mergedHits (s.workers.getD t default)) :
    s.hitCounter = (List.map mergedHits (s.workers.set t ts')).sum := by
  rw [sum_map_set_congr mergedHits s.workers t ts' default htl hf]
  exact h.hitc

theorem hitc_merge (cfg : Config) {σ : Type} (s : RunState σ)
    (h : GInv cfg s) (t : ℕ) (htl : t < s.workers.length)
    (hm : (s.workers.getD t default).merged = false) :
    s.hitCounter + (s.workers.getD t default).localHits =
      (List.map mergedHits
        (s.workers.set t { s.workers.getD t default with merged := true })).sum := by
  have hs := sum_map_set mergedHits s.workers t
    { s.workers.getD t default with merged := true } default htl
  have h1 : mergedHits { s.workers.getD t default with merged := true }
      = (s.workers.getD t default).localHits := rfl
  have h2 : mergedHits (s.workers.getD t default) = 0 := mergedHits_false _ hm
  rw [h1, h2] at hs
  have := h.hitc
  omega

theorem step_GInv {σ V : Type} (cfg : Config) (M : CacheModel σ V)
    (valueGen : ℕ → V) (s : RunState σ) (t : ℕ) (h : GInv cfg s) :
    GInv cfg (step cfg M valueGen s t) := by
  by_cases ht : t < cfg.threads
  · have htl : t < s.workers.length := by rw [h.len]; exact ht
    have hw := h.winv t ht
    cases hp : (s.workers.getD t default).pendingSet with
    | some k =>
      rw [step_pending cfg M valueGen s t k ht hp]
      obtain ⟨hk, hilt⟩ := hw.pending_eq k hp
      refine ⟨by simpa using h.len, ?_, ?_⟩
      · intro u hu
        by_cases hut : u = t
        · subst hut
          rw [getD_set_self _ _ _ _ htl]
          refine ⟨?_, ?_, ?_, ?_, ?_⟩
          · show (s.workers.getD u default).opIdx + 1 ≤ cfg.opsPerThread
            omega
          · show (s.workers.getD u default).localHits +
              ((s.workers.getD u default).setCount + 1) =
              (s.workers.getD u default).opIdx + 1
            have := hw.hits_add_sets
            omega
          · intro k' hk'
            exact Option.noConfusion hk'
          · intro hm
            have hm' : (s.workers.getD u default).merged = true := hm
            rw [(hw.merged_done hm').2] at hp
            exact Option.noConfusion hp
          · show (s.workers.getD u default).localUnique =
              (Finset.range ((s.workers.getD u default).opIdx + 1 +
                if (none : Option ℕ).isSome then 1 else 0)).image (genKey cfg u)
            rw [hw.unique_eq, hp]
            simp
        · rw [getD_set_ne _ _ _ _ _ (fun hx => hut hx.symm)]
          exact h.winv u hu
      · refine sum_unchanged cfg s h t htl _ ?_
        rfl
    | none =>
      by_cases hi : (s.workers.getD t default).opIdx < cfg.opsPerThread
      · have hmf : (s.workers.getD t default).merged = false := by
          cases hq : (s.workers.getD t default).merged
          · rfl
          · have := (hw.merged_done hq).1
            omega
        cases hg : M.get s.cache (genKey cfg t (s.workers.getD t default).opIdx) with
        | some v =>
          rw [step_hit cfg M valueGen s t v ht hp hi hg]
          refine ⟨by simpa using h.len, ?_, ?_⟩
          · intro u hu
            by_cases hut : u = t
            · subst hut
              rw [getD_set_self _ _ _ _ htl]
              refine ⟨?_, ?_, ?_, ?_, ?_⟩
              · show (s.workers.getD u default).opIdx + 1 ≤ cfg.opsPerThread
                omega
              · show (s.workers.getD u default).localHits + 1 +
                  (s.workers.getD u default).setCount =
                  (s.workers.getD u default).opIdx + 1
                have := hw.hits_add_sets
                omega
              · intro k' hk'
                have hk2 : (s.workers.getD u default).pendingSet = some k' := hk'
                rw [hp] at hk2
                exact Option.noConfusion hk2
              · intro hm
                have hm' : (s.workers.getD u default).merged = true := hm
                rw [hmf] at hm'
                exact Bool.noConfusion hm'
              · show insert (genKey cfg u (s.workers.getD u default).opIdx)
                  (s.workers.getD u default).localUnique =
                  (Finset.range ((s.workers.getD u default).opIdx + 1 +
                    if (s.workers.getD u default).pendingSet.isSome then 1
                    else 0)).image (genKey cfg u)
                rw [hw.unique_eq, hp]
                simp only [Option.isSome_none, Bool.false_eq_true, if_false,
                  add_zero]
                rw [Finset.range_succ, Finset.image_insert]
            · rw [getD_set_ne _ _ _ _ _ (fun hx => hut hx.symm)]
              exact h.winv u hu
          · refine sum_unchanged cfg s h t htl _ ?_
            refine (mergedHits_false _ ?_).trans (mergedHits_false _ hmf).symm
            exact hmf
        | none =>
          rw [step_miss cfg M valueGen s t ht hp hi hg]
          refine ⟨by simpa using h.len, ?_, ?_⟩
          · intro u hu
            by_cases hut : u = t
            · subst hut
              rw [getD_set_self _ _ _ _ htl]
              refine ⟨?_, ?_, ?_, ?_, ?_⟩
              · show (s.workers.getD u default).opIdx ≤ cfg.opsPerThread
                exact hw.opIdx_le
              · exact hw.hits_add_sets
              · intro k' hk'
                have hk2 : some (genKey cfg u (s.workers.getD u default).opIdx)
                    = some k' := hk'
                injection hk2 with hk3
                exact ⟨hk3.symm, hi⟩
              · intro hm
                have hm' : (s.workers.getD u default).merged = true := hm
                rw [hmf] at hm'
                exact Bool.noConfusion hm'
              · show insert (genKey cfg u (s.workers.getD u default).opIdx)
                  (s.workers.getD u default).localUnique =
                  (Finset.range ((s.workers.getD u default).opIdx +
                    if (some (genKey cfg u (s.workers.getD u default).opIdx)).isSome
                    then 1 else 0)).image (genKey cfg u)
                rw [hw.unique_eq, hp]
                simp only [Option.isSome_none, Option.isSome_some,
                  Bool.false_eq_true, if_false, if_true, add_zero]
                rw [Finset.range_succ, Finset.image_insert]
            · rw [getD_set_ne _ _ _ _ _ (fun hx => hut hx.symm)]
              exact h.winv u hu
          · refine sum_unchanged cfg s h t htl _ ?_
            rfl
      · cases hm : (s.workers.getD t default).merged with
        | true =>
          rw [step_done cfg M valueGen s t ht hp hi hm]
          exact h
        | false =>
          rw [step_merge cfg M valueGen s t ht hp hi hm]
          refine ⟨by simpa using h.len, ?_, ?_⟩
          · intro u hu
            by_cases hut : u = t
            · subst hut
              rw [getD_set_self _ _ _ _ htl]
              refine ⟨hw.opIdx_le, hw.hits_add_sets, ?_, ?_, ?_⟩
              · intro k' hk'
                exact hw.pending_eq k' hk'
              · intro _
                refine ⟨?_, hp⟩
                show (s.workers.getD u default).opIdx = cfg.opsPerThread
                have := hw.opIdx_le
                omega
              · exact hw.unique_eq
            · rw [getD_set_ne _ _ _ _ _ (fun hx => hut hx.symm)]
              exact h.winv u hu
          · exact hitc_merge cfg s h t htl hm
  · rw [step_oob cfg M valueGen s t ht]
    exact h

theorem foldl_step_GInv {σ V : Type} (cfg : Config) (M : CacheModel σ V)
    (valueGen : ℕ → V) (sched : List ℕ) (s : RunState σ) (h : GInv cfg s) :
    GInv cfg (sched.foldl (step cfg M valueGen) s) := by
  induction sched generalizing s with
  | nil => exact h
  | cons a l ih => exact ih _ (step_GInv cfg M valueGen s a h)

theorem run_GInv {σ V : Type} (cfg : Config) (M : CacheModel σ V)
    (valueGen : ℕ → V) (cache₀ : σ) (sched : List ℕ) :
    GInv cfg (run cfg M valueGen cache₀ sched) :=
  foldl_step_GInv cfg M valueGen sched _ (initState_GInv cfg cache₀)

/-! ## Facts about completed runs -/

theorem getD_map_eq {α β : Type} (l : List α) (f : α → β) (i : ℕ)
    (h : i < l.length) (d : α) (d' : β) :
    (l.map f).getD i d' = f (l.getD i d) := by
  rw [List.getD_eq_getElem _ _ (by simpa using h), List.getD_eq_getElem _ _ h,
    List.getElem_map]

theorem forall_mem_of_forall_getD {α : Type} (l : List α) (d : α)
    (P : α → Prop) (h : ∀ i, i < l.length → P (l.getD i d)) :
    ∀ x ∈ l, P x := by
  intro x hx
  obtain ⟨i, hi, rfl⟩ := List.mem_iff_getElem.mp hx
  have := h i hi
  rwa [List.getD_eq_getElem _ _ hi] at this

theorem completed_worker_state {σ V : Type} (cfg : Config) (M : CacheModel σ V)
    (valueGen : ℕ → V) (cache₀ : σ) (sched : List ℕ)
    (hc : completedRun cfg (run cfg M valueGen cache₀ sched))
    (t : ℕ) (ht : t < cfg.threads) :
    ((run cfg M valueGen cache₀ sched).workers.getD t default).opIdx =
        cfg.opsPerThread ∧
      ((run cfg M valueGen cache₀ sched).workers.getD t default).pendingSet =
        none ∧
      ((run cfg M valueGen cache₀ sched).workers.getD t default).localUnique =
        (Finset.range cfg.opsPerThread).image (genKey cfg t) ∧
      ((run cfg M valueGen cache₀ sched).workers.getD t default).localHits +
        ((run cfg M valueGen cache₀ sched).workers.getD t default).setCount =
        cfg.opsPerThread := by
  have hw := (run_GInv cfg M valueGen cache₀ sched).winv t ht
  obtain ⟨h1, h2⟩ := hw.merged_done (hc t ht)
  refine ⟨h1, h2, ?_, ?_⟩
  · have h3 := hw.unique_eq
    rw [h2, h1] at h3
    simpa using h3
  · have := hw.hits_add_sets
    omega

theorem completed_hitCounter {σ V : Type} (cfg : Config) (M : CacheModel σ V)
    (valueGen : ℕ → V) (cache₀ : σ) (sched : List ℕ)
    (hc : completedRun cfg (run cfg M valueGen cache₀ sched)) :
    (run cfg M valueGen cache₀ sched).hitCounter =
      ((run cfg M valueGen cache₀ sched).workers.map ThreadState.localHits).sum := by
  have hg := run_GInv cfg M valueGen cache₀ sched
  rw [hg.hitc]
  congr 1
  apply List.map_congr_left
  apply forall_mem_of_forall_getD _ default
  intro i hi
  have hm := hc i (by rw [← hg.len]; exact hi)
  simp only [mergedHits, hm]
  simp

theorem run_hits_sum_le {σ V : Type} (cfg : Config) (M : CacheModel σ V)
    (valueGen : ℕ → V) (cache₀ : σ) (sched : List ℕ) :
    (((run cfg M valueGen cache₀ sched).workers.map ThreadState.localHits).sum)
      ≤ cfg.threads * cfg.opsPerThread := by
  have hg := run_GInv cfg M valueGen cache₀ sched
  have hb : ∀ x ∈ (run cfg M valueGen cache₀ sched).workers.map
      ThreadState.localHits, x ≤ cfg.opsPerThread := by
    intro x hx
    obtain ⟨ts, hts, rfl⟩ := List.mem_map.mp hx
    have hP : ∀ y ∈ (run cfg M valueGen cache₀ sched).workers,
        ThreadState.localHits y ≤ cfg.opsPerThread := by
      apply forall_mem_of_forall_getD _ default
      intro i hi
      have hw := hg.winv i (by rw [← hg.len]; exact hi)
      have := hw.hits_add_sets
      have := hw.opIdx_le
      omega
    exact hP ts hts
  have := List.sum_le_card_nsmul _ _ hb
  simpa [hg.len, Nat.mul_comm] using this

theorem benchCache_total_entries {σ V : Type} (cfg : Config) (M : CacheModel σ V)
    (valueGen : ℕ → V) (cache₀ : σ) (sched : List ℕ) (name : String)
    (em : ℕ) (es : ℚ) (im fm : Option ℕ) :
    (benchCache cfg M valueGen cache₀ sched name em es im fm).total_entries =
      ((Finset.range cfg.threads).biUnion
        (fun t => ((run cfg M valueGen cache₀ sched).workers.getD t
          default).localUnique)).card := by
  have hg := run_GInv cfg M valueGen cache₀ sched
  show (((run cfg M valueGen cache₀ sched).workers.map
    ThreadState.localUnique).foldl (· ∪ ·) ∅).card = _
  rw [foldl_union_eq_biUnion]
  congr 1
  refine Finset.biUnion_congr ?_ ?_
  · rw [List.length_map, hg.len]
  · intro t ht
    rw [List.length_map, hg.len] at ht
    rw [Finset.mem_range] at ht
    exact getD_map_eq _ _ _ (by rw [hg.len]; exact ht) default ∅

theorem completed_total_entries {σ V : Type} (cfg : Config) (M : CacheModel σ V)
    (valueGen : ℕ → V) (cache₀ : σ) (sched : List ℕ) (name : String)
    (em : ℕ) (es : ℚ) (im fm : Option ℕ)
    (hc : completedRun cfg (run cfg M valueGen cache₀ sched)) :
    (benchCache cfg M valueGen cache₀ sched name em es im fm).total_entries =
      ((Finset.range cfg.threads).biUnion
        (fun t => (Finset.range cfg.opsPerThread).image (genKey cfg t))).card := by
  rw [benchCache_total_entries]
  congr 1
  refine Finset.biUnion_congr rfl ?_
  intro t ht
  rw [Finset.mem_range] at ht
  exact (completed_worker_state cfg M valueGen cache₀ sched hc t ht).2.2.1

/-! ## Generic facts about single steps -/

theorem step_len {σ V : Type} (cfg : Config) (M : CacheModel σ V)
    (valueGen : ℕ → V) (s : RunState σ) (t : ℕ) :
    (step cfg M valueGen s t).workers.length = s.workers.length := by
  by_cases ht : t < cfg.threads
  · cases hp : (s.workers.getD t default).pendingSet with
    | some k =>
      rw [step_pending cfg M valueGen s t k ht hp]
      simp
    | none =>
      by_cases hi : (s.workers.getD t default).opIdx < cfg.opsPerThread
      · cases hg : M.get s.cache (genKey cfg t (s.workers.getD t default).opIdx) with
        | some v =>
          rw [step_hit cfg M valueGen s t v ht hp hi hg]
          simp
        | none =>
          rw [step_miss cfg M valueGen s t ht hp hi hg]
          simp
      · cases hm : (s.workers.getD t default).merged with
        | true => rw [step_done cfg M valueGen s t ht hp hi hm]
        | false =>
          rw [step_merge cfg M valueGen s t ht hp hi hm]
          simp
  · rw [step_oob cfg M valueGen s t ht]

theorem step_getD_other {σ V : Type} (cfg : Config) (M : CacheModel σ V)
    (valueGen : ℕ → V) (s : RunState σ) (t u : ℕ) (hu : u ≠ t) :
    (step cfg M valueGen s t).workers.getD u default =
      s.workers.getD u default := by
  by_cases ht : t < cfg.threads
  · cases hp : (s.workers.getD t default).pendingSet with
    | some k =>
      rw [step_pending cfg M valueGen s t k ht hp]
      exact getD_set_ne _ _ _ _ _ (fun hx => hu hx.symm)
    | none =>
      by_cases hi : (s.workers.getD t default).opIdx < cfg.opsPerThread
      · cases hg : M.get s.cache (genKey cfg t (s.workers.getD t default).opIdx) with
        | some v =>
          rw [step_hit cfg M valueGen s t v ht hp hi hg]
          exact getD_set_ne _ _ _ _ _ (fun hx => hu hx.symm)
        | none =>
          rw [step_miss cfg M valueGen s t ht hp hi hg]
          exact getD_set_ne _ _ _ _ _ (fun hx => hu hx.symm)
      · cases hm : (s.workers.getD t default).merged with
        | true => rw [step_done cfg M valueGen s t ht hp hi hm]
        | false =>
          rw [step_merge cfg M valueGen s t ht hp hi hm]
          exact getD_set_ne _ _ _ _ _ (fun hx => hu hx.symm)
  · rw [step_oob cfg M valueGen s t ht]

theorem step_getD_self_pending {σ V : Type} (cfg : Config) (M : CacheModel σ V)
    (valueGen : ℕ → V) (s : RunState σ) (t k : ℕ) (ht : t < cfg.threads)
    (htl : t < s.workers.length)
    (hp : (s.workers.getD t default).pendingSet = some k) :
    (step cfg M valueGen s t).workers.getD t default =
      { s.workers.getD t default with
        pendingSet := none
        opIdx := (s.workers.getD t default).opIdx + 1
        setCount := (s.workers.getD t default).setCount + 1 } := by
  rw [step_pending cfg M valueGen s t k ht hp]
  exact getD_set_self _ _ _ _ htl

theorem step_getD_self_miss {σ V : Type} (cfg : Config) (M : CacheModel σ V)
    (valueGen : ℕ → V) (s : RunState σ) (t : ℕ) (ht : t < cfg.threads)
    (htl : t < s.workers.length)
    (hp : (s.workers.getD t default).pendingSet = none)
    (hi : (s.workers.getD t default).opIdx < cfg.opsPerThread)
    (hg : M.get s.cache (genKey cfg t (s.workers.getD t default).opIdx) = none) :
    (step cfg M valueGen s t).workers.getD t default =
      { s.workers.getD t default with
        localUnique := insert (genKey cfg t (s.workers.getD t default).opIdx)
          (s.workers.getD t default).localUnique
        pendingSet := some (genKey cfg t (s.workers.getD t default).opIdx) } := by
  rw [step_miss cfg M valueGen s t ht hp hi hg]
  exact getD_set_self _ _ _ _ htl

theorem step_getD_self_merge {σ V : Type} (cfg : Config) (M : CacheModel σ V)
    (valueGen : ℕ → V) (s : RunState σ) (t : ℕ) (ht : t < cfg.threads)
    (htl : t < s.workers.length)
    (hp : (s.workers.getD t default).pendingSet = none)
    (hi : ¬ (s.workers.getD t default).opIdx < cfg.opsPerThread)
    (hm : (s.workers.getD t default).merged = false) :
    (step cfg M valueGen s t).workers.getD t default =
      { s.workers.getD t default with merged := true } := by
  rw [step_merge cfg M valueGen s t ht hp hi hm]
  exact getD_set_self _ _ _ _ htl

/-! ## The canonical schedule completes against `unitModel` -/

theorem unit_two_steps (cfg : Config) (s : RunState Unit) (t : ℕ)
    (ht : t < cfg.threads) (htl : t < s.workers.length)
    (hp : (s.workers.getD t default).pendingSet = none)
    (hm : (s.workers.getD t default).merged = false)
    (hi : (s.workers.getD t default).opIdx < cfg.opsPerThread) :
    (step cfg unitModel unitValue (step cfg unitModel unitValue s t)
        t).workers.length = s.workers.length ∧
    ((step cfg unitModel unitValue (step cfg unitModel unitValue s t)
        t).workers.getD t default).pendingSet = none ∧
    ((step cfg unitModel unitValue (step cfg unitModel unitValue s t)
        t).workers.getD t default).merged = false ∧
    ((step cfg unitModel unitValue (step cfg unitModel unitValue s t)
        t).workers.getD t default).opIdx =
      (s.workers.getD t default).opIdx + 1 ∧
    ∀ u, u ≠ t →
      (step cfg unitModel unitValue (step cfg unitModel unitValue s t)
        t).workers.getD u default = s.workers.getD u default := by
  have hg0 : unitModel.get s.cache
      (genKey cfg t (s.workers.getD t default).opIdx) = none := rfl
  have hgd1 := step_getD_self_miss cfg unitModel unitValue s t ht htl hp hi hg0
  have hlen1 := step_len cfg unitModel unitValue s t
  have htl1 : t < (step cfg unitModel unitValue s t).workers.length := by
    rw [hlen1]
    exact htl
  have hp1 : ((step cfg unitModel unitValue s t).workers.getD t
      default).pendingSet = some (genKey cfg t (s.workers.getD t default).opIdx) := by
    rw [hgd1]
  have hgd2 := step_getD_self_pending cfg unitModel unitValue
    (step cfg unitModel unitValue s t) t
    (genKey cfg t (s.workers.getD t default).opIdx) ht htl1 hp1
  have hlen2 := step_len cfg unitModel unitValue
    (step cfg unitModel unitValue s t) t
  refine ⟨by rw [hlen2, hlen1], ?_, ?_, ?_, ?_⟩
  · rw [hgd2]
  · rw [hgd2]
    show ((step cfg unitModel unitValue s t).workers.getD t default).merged = false
    rw [hgd1]
    exact hm
  · rw [hgd2]
    show ((step cfg unitModel unitValue s t).workers.getD t default).opIdx + 1 =
      (s.workers.getD t default).opIdx + 1
    rw [hgd1]
  · intro u hu
    rw [step_getD_other cfg unitModel unitValue _ t u hu,
      step_getD_other cfg unitModel unitValue s t u hu]

theorem unit_steps (cfg : Config) (j : ℕ) : ∀ (s : RunState Unit) (t : ℕ),
    t < cfg.threads → t < s.workers.length →
    (s.workers.getD t default).pendingSet = none →
    (s.workers.getD t default).merged = false →
    (s.workers.getD t default).opIdx + j ≤ cfg.opsPerThread →
    ((List.replicate (2 * j) t).foldl (step cfg unitModel unitValue)
        s).workers.length = s.workers.length ∧
    (((List.replicate (2 * j) t).foldl (step cfg unitModel unitValue)
        s).workers.getD t default).pendingSet = none ∧
    (((List.replicate (2 * j) t).foldl (step cfg unitModel unitValue)
        s).workers.getD t default).merged = false ∧
    (((List.replicate (2 * j) t).foldl (step cfg unitModel unitValue)
        s).workers.getD t default).opIdx =
      (s.workers.getD t default).opIdx + j ∧
    ∀ u, u ≠ t →
      ((List.replicate (2 * j) t).foldl (step cfg unitModel unitValue)
        s).workers.getD u default = s.workers.getD u default := by
  induction j with
  | zero =>
    intro s t ht htl hp hm hle
    exact ⟨rfl, hp, hm, rfl, fun u _ => rfl⟩
  | succ n ih =>
    intro s t ht htl hp hm hle
    have hrep : List.replicate (2 * (n + 1)) t =
        t :: t :: List.replicate (2 * n) t := by
      have h2 : 2 * (n + 1) = (2 * n + 1) + 1 := by omega
      rw [h2, List.replicate_succ, List.replicate_succ]
    rw [hrep]
    simp only [List.foldl_cons]
    have hi0 : (s.workers.getD t default).opIdx < cfg.opsPerThread := by omega
    obtain ⟨h1, h2, h3, h4, h5⟩ := unit_two_steps cfg s t ht htl hp hm hi0
    obtain ⟨ih1, ih2, ih3, ih4, ih5⟩ := ih
      (step cfg unitModel unitValue (step cfg unitModel unitValue s t) t) t ht
      (by rw [h1]; exact htl) h2 h3 (by rw [h4]; omega)
    refine ⟨by rw [ih1, h1], ih2, ih3, ?_, ?_⟩
    · rw [ih4, h4]
      omega
    · intro u hu
      rw [ih5 u hu, h5 u hu]

theorem unit_block (cfg : Config) (s : RunState Unit) (t : ℕ)
    (ht : t < cfg.threads) (htl : t < s.workers.length)
    (hp : (s.workers.getD t default).pendingSet = none)
    (hm : (s.workers.getD t default).merged = false)
    (h0 : (s.workers.getD t default).opIdx = 0) :
    ((seqBlock cfg t).foldl (step cfg unitModel unitValue) s).workers.length =
      s.workers.length ∧
    (((seqBlock cfg t).foldl (step cfg unitModel unitValue)
        s).workers.getD t default).merged = true ∧
    ∀ u, u ≠ t →
      ((seqBlock cfg t).foldl (step cfg unitModel unitValue)
        s).workers.getD u default = s.workers.getD u default := by
  obtain ⟨h1, h2, h3, h4, h5⟩ := unit_steps cfg cfg.opsPerThread s t ht htl hp hm
    (by omega)
  rw [seqBlock, List.foldl_append]
  set s' : RunState Unit := (List.replicate (2 * cfg.opsPerThread) t).foldl
    (step cfg unitModel unitValue) s with hs'
  have hi' : ¬ (s'.workers.getD t default).opIdx < cfg.opsPerThread := by
    rw [h4, h0]
    omega
  simp only [List.foldl_cons, List.foldl_nil]
  rw [step_merge cfg unitModel unitValue s' t ht h2 hi' h3]
  have htl' : t < s'.workers.length := by rw [h1]; exact htl
  refine ⟨by simpa using h1, ?_, ?_⟩
  · rw [getD_set_self _ _ _ _ htl']
  · intro u hu
    rw [getD_set_ne _ _ _ _ _ (fun hx => hu hx.symm)]
    exact h5 u hu

theorem seq_aux (cfg : Config) : ∀ (l : List ℕ) (s : RunState Unit),
    l.Nodup → (∀ t ∈ l, t < cfg.threads) →
    s.workers.length = cfg.threads →
    (∀ t ∈ l, (s.workers.getD t default).opIdx = 0 ∧
      (s.workers.getD t default).pendingSet = none ∧
      (s.workers.getD t default).merged = false) →
    ((l.flatMap (seqBlock cfg)).foldl (step cfg unitModel unitValue)
        s).workers.length = cfg.threads ∧
    (∀ t ∈ l, (((l.flatMap (seqBlock cfg)).foldl (step cfg unitModel unitValue)
        s).workers.getD t default).merged = true) ∧
    ∀ u, u ∉ l →
      ((l.flatMap (seqBlock cfg)).foldl (step cfg unitModel unitValue)
        s).workers.getD u default = s.workers.getD u default := by
  intro l
  induction l with
  | nil =>
    intro s _ _ hlen _
    refine ⟨hlen, ?_, ?_⟩
    · intro t ht
      simp at ht
    · intro u _
      rfl
  | cons t rest ih =>
    intro s hnd hlt hlen hfresh
    rw [List.flatMap_cons, List.foldl_append]
    obtain ⟨hf0, hfp, hfm⟩ := hfresh t (List.mem_cons_self t rest)
    have ht : t < cfg.threads := hlt t (List.mem_cons_self t rest)
    obtain ⟨hb1, hb2, hb3⟩ := unit_block cfg s t ht (by rw [hlen]; exact ht)
      hfp hfm hf0
    set s1 : RunState Unit := ((seqBlock cfg t).foldl
      (step cfg unitModel unitValue) s) with hs1
    have hnd' : rest.Nodup := (List.nodup_cons.mp hnd).2
    have htm : t ∉ rest := (List.nodup_cons.mp hnd).1
    obtain ⟨ihl, ihm, ihu⟩ := ih s1 hnd'
      (fun u hu => hlt u (List.mem_cons_of_mem t hu))
      (by rw [hb1]; exact hlen)
      (by
        intro u hu
        rw [hb3 u (fun hx => htm (hx ▸ hu))]
        exact hfresh u (List.mem_cons_of_mem t hu))
    refine ⟨ihl, ?_, ?_⟩
    · intro u hu
      rcases List.mem_cons.mp hu with rfl | hu'
      · rw [ihu u htm]
        exact hb2
      · exact ihm u hu'
    · intro u hu
      have hut : u ≠ t := fun hx => hu (hx ▸ List.mem_cons_self t rest)
      have hur : u ∉ rest := fun hx => hu (List.mem_cons_of_mem t hx)
      rw [ihu u hur]
      exact hb3 u hut

theorem seqSched_completes (cfg : Config) :
    completedRun cfg (run cfg unitModel unitValue () (seqSched cfg)) := by
  have hinit : ∀ t ∈ List.range cfg.threads,
      (((initState cfg ()) : RunState Unit).workers.getD t default).opIdx = 0 ∧
      ((initState cfg () : RunState Unit).workers.getD t default).pendingSet = none ∧
      ((initState cfg () : RunState Unit).workers.getD t default).merged = false := by
    intro t ht
    rw [List.mem_range] at ht
    rw [initState]
    rw [getD_replicate _ _ _ _ ht]
    exact ⟨rfl, rfl, rfl⟩
  obtain ⟨h1, h2, h3⟩ := seq_aux cfg (List.range cfg.threads) (initState cfg ())
    (List.nodup_range cfg.threads)
    (fun t ht => List.mem_range.mp ht)
    (by rw [initState]; exact List.length_replicate cfg.threads default)
    hinit
  intro t ht
  exact h2 t (List.mem_range.mpr ht)

/-! ## Claims -/

/-- C1: the workload generator produces the key
`(i + thread_id * ops_per_thread) mod (2 * capacity)` for every thread id
and operation index; instantiated at the program's constants
`OPS_PER_THREAD` and `CACHE_SIZE`, this is the expression computing `key`
in the worker loop (`src/main.rs` line 58). -/
theorem claim_c1_workload_key :
    (∀ (cfg : Config) (threadId i : ℕ),
      genKey cfg threadId i =
        (i + threadId * cfg.opsPerThread) % (2 * cfg.cacheSize)) ∧
    ∀ threadId i : ℕ,
      genKey progConfig threadId i =
        (i + threadId * OPS_PER_THREAD) % (2 * CACHE_SIZE) := by
  constructor
  · intro cfg threadId i
    show (i + threadId * cfg.opsPerThread) % (cfg.cacheSize * 2) =
      (i + threadId * cfg.opsPerThread) % (2 * cfg.cacheSize)
    rw [Nat.mul_comm cfg.cacheSize 2]
  · intro threadId i
    show (i + threadId * OPS_PER_THREAD) % (CACHE_SIZE * 2) =
      (i + threadId * OPS_PER_THREAD) % (2 * CACHE_SIZE)
    rw [Nat.mul_comm CACHE_SIZE 2]

/-- C2: for every capacity ≥ 1 and every pair (thread_id, op_index) the
generated key satisfies `0 ≤ key < 2 * capacity`, and for capacity = 1
every key is 0 or 1. -/
theorem claim_c2_key_bounds (cfg : Config) (threadId i : ℕ)
    (h : 1 ≤ cfg.cacheSize) :
    0 ≤ genKey cfg threadId i ∧
    genKey cfg threadId i < 2 * cfg.cacheSize ∧
    (cfg.cacheSize = 1 → genKey cfg threadId i = 0 ∨ genKey cfg threadId i = 1) := by
  have hlt : genKey cfg threadId i < cfg.cacheSize * 2 :=
    Nat.mod_lt _ (by omega)
  refine ⟨Nat.zero_le _, by omega, ?_⟩
  intro h1
  omega

theorem claim_c2_key_bounds_witness :
    1 ≤ (Config.mk 2 4 1).cacheSize ∧
      (0 ≤ genKey (Config.mk 2 4 1) 1 3 ∧
        genKey (Config.mk 2 4 1) 1 3 < 2 * (Config.mk 2 4 1).cacheSize ∧
        ((Config.mk 2 4 1).cacheSize = 1 →
          genKey (Config.mk 2 4 1) 1 3 = 0 ∨ genKey (Config.mk 2 4 1) 1 3 = 1)) :=
  ⟨by decide, claim_c2_key_bounds (Config.mk 2 4 1) 1 3 (by decide)⟩

/-- C3: for every completed run of `bench_cache`, the `hit_rate` field is
the sum of the workers' local hit counts divided by
`threads * ops_per_thread`, and `0 ≤ hit_rate ≤ 1`. -/
theorem claim_c3_hit_rate {σ V : Type} (cfg : Config) (M : CacheModel σ V)
    (valueGen : ℕ → V) (cache₀ : σ) (sched : List ℕ) (name : String)
    (em : ℕ) (es : ℚ) (im fm : Option ℕ)
    (hc : completedRun cfg (run cfg M valueGen cache₀ sched)) :
    (benchCache cfg M valueGen cache₀ sched name em es im fm).hit_rate =
      (((run cfg M valueGen cache₀ sched).workers.map
          ThreadState.localHits).sum : ℚ) /
        ((cfg.threads * cfg.opsPerThread : ℕ) : ℚ) ∧
    0 ≤ (benchCache cfg M valueGen cache₀ sched name em es im fm).hit_rate ∧
    (benchCache cfg M valueGen cache₀ sched name em es im fm).hit_rate ≤ 1 := by
  have heq : (benchCache cfg M valueGen cache₀ sched name em es im fm).hit_rate
      = (((run cfg M valueGen cache₀ sched).hitCounter : ℚ)) /
        ((cfg.threads * cfg.opsPerThread : ℕ) : ℚ) := rfl
  rw [heq, completed_hitCounter cfg M valueGen cache₀ sched hc]
  refine ⟨rfl, ?_, ?_⟩
  · exact div_nonneg (Nat.cast_nonneg _) (Nat.cast_nonneg _)
  · have hle := run_hits_sum_le cfg M valueGen cache₀ sched
    rcases Nat.eq_zero_or_pos (cfg.threads * cfg.opsPerThread) with h0 | hpos
    · have hz : ((run cfg M valueGen cache₀ sched).workers.map
          ThreadState.localHits).sum = 0 := by omega
      rw [hz, h0]
      norm_num
    · rw [div_le_one (by exact_mod_cast hpos)]
      exact_mod_cast hle

theorem claim_c3_hit_rate_witness :
    completedRun progConfig
        (run progConfig unitModel unitValue () (seqSched progConfig)) ∧
      (benchCache progConfig unitModel unitValue () (seqSched progConfig)
        "bench" 0 0 none none).hit_rate ≤ 1 :=
  ⟨seqSched_completes progConfig,
    (claim_c3_hit_rate progConfig unitModel unitValue () (seqSched progConfig)
      "bench" 0 0 none none (seqSched_completes progConfig)).2.2⟩

/-- C6: the source contains no guard on a zero elapsed time: at
`elapsed = 0` with the program's total operation count, the division at
`src/main.rs` line 101 is executed and yields `+∞` (the IEEE-754 result),
never a finite throughput number. -/
theorem claim_c6_zero_elapsed :
    benchOpsPerSec (NUM_THREADS * OPS_PER_THREAD) 0 = FloatVal.posInf ∧
    ∀ q : ℚ, benchOpsPerSec (NUM_THREADS * OPS_PER_THREAD) 0 ≠ FloatVal.finite q := by
  have h : benchOpsPerSec (NUM_THREADS * OPS_PER_THREAD) 0 = FloatVal.posInf := by
    decide
  refine ⟨h, ?_⟩
  intro q h2
  rw [h] at h2
  exact FloatVal.noConfusion h2

/-- C7 (counterexample): an unavailable initial memory reading together
with an available final reading of 5 MiB yields a 5 MiB delta, not the
zero delta the claim promises for "either reading unavailable". -/
theorem claim_c7_counterexample :
    memoryUsed none (some 5242880) = 5242880 ∧
      memoryUsed none (some 5242880) ≠ 0 := by
  exact ⟨rfl, by decide⟩

/-- C7 (amended): each unavailable reading is defaulted to a zero reading
before the subtraction, so the delta is
`(final reading or 0) saturating-minus (initial reading or 0)`: with both
readings available it is the clamped non-negative difference, with the
final reading unavailable it is zero, but with only the initial reading
unavailable it is the entire final reading. -/
theorem claim_c7_memory_delta :
    (∀ a b : ℕ, memoryUsed (some a) (some b) = b - a) ∧
    (∀ i : Option ℕ, memoryUsed i none = 0) ∧
    (∀ b : ℕ, memoryUsed none (some b) = b) := by
  refine ⟨fun a b => rfl, ?_, fun b => rfl⟩
  intro i
  simp [memoryUsed]

/-- C10: every generated key is recorded in the worker's local unique-key
set unconditionally (before the `get`, on hits and misses alike), so on a
completed run each worker's unique-key set is exactly the image of the
workload generator over its operation indices, for every backend, every
value generator and every interleaving. -/
theorem claim_c10_unique_keys {σ V : Type} (cfg : Config) (M : CacheModel σ V)
    (valueGen : ℕ → V) (cache₀ : σ) (sched : List ℕ)
    (hc : completedRun cfg (run cfg M valueGen cache₀ sched))
    (t : ℕ) (ht : t < cfg.threads) :
    ((run cfg M valueGen cache₀ sched).workers.getD t default).localUnique =
      (Finset.range cfg.opsPerThread).image (genKey cfg t) :=
  (completed_worker_state cfg M valueGen cache₀ sched hc t ht).2.2.1

theorem claim_c10_unique_keys_witness :
    completedRun progConfig
        (run progConfig unitModel unitValue () (seqSched progConfig)) ∧
      0 < progConfig.threads ∧
      ((run progConfig unitModel unitValue ()
          (seqSched progConfig)).workers.getD 0 default).localUnique =
        (Finset.range progConfig.opsPerThread).image (genKey progConfig 0) :=
  ⟨seqSched_completes progConfig, by decide,
    claim_c10_unique_keys progConfig unitModel unitValue ()
      (seqSched progConfig) (seqSched_completes progConfig) 0 (by decide)⟩

theorem sum_const_of_mem (l : List ℕ) (m : ℕ) (h : ∀ x ∈ l, x = m) :
    l.sum = l.length * m := by
  induction l with
  | nil => simp
  | cons a l ih =>
    rw [List.sum_cons, List.length_cons, h a (List.mem_cons_self a l),
      ih (fun x hx => h x (List.mem_cons_of_mem a hx))]
    ring

/-- C4: on every completed run `total_entries` is the cardinality of the
union of the per-worker unique-key sets (the fold at `src/main.rs`
lines 81-85 computes a set union, not a sum of sizes), and it is bounded
by `min (2 * capacity) (threads * ops_per_thread)`. -/
theorem claim_c4_total_entries {σ V : Type} (cfg : Config) (M : CacheModel σ V)
    (valueGen : ℕ → V) (cache₀ : σ) (sched : List ℕ) (name : String)
    (em : ℕ) (es : ℚ) (im fm : Option ℕ) (hcap : 1 ≤ cfg.cacheSize)
    (hc : completedRun cfg (run cfg M valueGen cache₀ sched)) :
    (benchCache cfg M valueGen cache₀ sched name em es im fm).total_entries =
      ((Finset.range cfg.threads).biUnion
        (fun t => ((run cfg M valueGen cache₀ sched).workers.getD t
          default).localUnique)).card ∧
    (benchCache cfg M valueGen cache₀ sched name em es im fm).total_entries ≤
      min (2 * cfg.cacheSize) (cfg.threads * cfg.opsPerThread) := by
  refine ⟨benchCache_total_entries cfg M valueGen cache₀ sched name em es im fm,
    ?_⟩
  rw [completed_total_entries cfg M valueGen cache₀ sched name em es im fm hc]
  refine le_min ?_ ?_
  · have hsub : (Finset.range cfg.threads).biUnion
        (fun t => (Finset.range cfg.opsPerThread).image (genKey cfg t)) ⊆
        Finset.range (2 * cfg.cacheSize) := by
      intro x hx
      rw [Finset.mem_biUnion] at hx
      obtain ⟨t, _, hx⟩ := hx
      rw [Finset.mem_image] at hx
      obtain ⟨i, _, rfl⟩ := hx
      rw [Finset.mem_range]
      have : genKey cfg t i < cfg.cacheSize * 2 := Nat.mod_lt _ (by omega)
      omega
    exact le_trans (Finset.card_le_card hsub) (le_of_eq (Finset.card_range _))
  · have h1 : ∀ t ∈ Finset.range cfg.threads,
        ((Finset.range cfg.opsPerThread).image (genKey cfg t)).card ≤
          cfg.opsPerThread := fun t _ =>
      le_trans Finset.card_image_le (le_of_eq (Finset.card_range _))
    have h2 := Finset.sum_le_sum h1
    rw [Finset.sum_const, Finset.card_range, smul_eq_mul] at h2
    exact le_trans Finset.card_biUnion_le h2

theorem claim_c4_total_entries_witness :
    1 ≤ progConfig.cacheSize ∧
      completedRun progConfig
        (run progConfig unitModel unitValue () (seqSched progConfig)) ∧
      (benchCache progConfig unitModel unitValue () (seqSched progConfig)
          "bench" 0 0 none none).total_entries ≤
        min (2 * progConfig.cacheSize)
          (progConfig.threads * progConfig.opsPerThread) :=
  ⟨by decide, seqSched_completes progConfig,
    (claim_c4_total_entries progConfig unitModel unitValue ()
      (seqSched progConfig) "bench" 0 0 none none (by decide)
      (seqSched_completes progConfig)).2⟩

/-- C5: each worker performs exactly `ops_per_thread` iterations, and each
iteration is exactly one of: a hit (`get_key` returns `Some`; the local
hit counter is incremented, no `set_key` call is made, the cache is
untouched by the worker) or a miss (`get_key` returns `None`; the hit
counter is unchanged and `set_key(key, value_gen(key))` is called).
Consequently on a completed run each worker's hits and set-calls add up to
`ops_per_thread` and the operation counts across workers sum to exactly
`threads * ops_per_thread`. -/
theorem claim_c5_worker_loop {σ V : Type} (cfg : Config) (M : CacheModel σ V)
    (valueGen : ℕ → V) (cache₀ : σ) (sched : List ℕ)
    (hc : completedRun cfg (run cfg M valueGen cache₀ sched)) :
    (∀ t, t < cfg.threads →
      ((run cfg M valueGen cache₀ sched).workers.getD t default).localHits +
        ((run cfg M valueGen cache₀ sched).workers.getD t default).setCount =
        cfg.opsPerThread) ∧
    ((run cfg M valueGen cache₀ sched).workers.map ThreadState.opIdx).sum =
      cfg.threads * cfg.opsPerThread ∧
    (∀ s : RunState σ, ∀ t, t < cfg.threads → t < s.workers.length →
      (s.workers.getD t default).pendingSet = none →
      (s.workers.getD t default).opIdx < cfg.opsPerThread →
      (∀ v, M.get s.cache (genKey cfg t (s.workers.getD t default).opIdx) =
          some v →
        (step cfg M valueGen s t).cache = s.cache ∧
        ((step cfg M valueGen s t).workers.getD t default).localHits =
          (s.workers.getD t default).localHits + 1 ∧
        ((step cfg M valueGen s t).workers.getD t default).setCount =
          (s.workers.getD t default).setCount ∧
        ((step cfg M valueGen s t).workers.getD t default).opIdx =
          (s.workers.getD t default).opIdx + 1) ∧
      (M.get s.cache (genKey cfg t (s.workers.getD t default).opIdx) = none →
        (step cfg M valueGen (step cfg M valueGen s t) t).cache =
          M.set s.cache (genKey cfg t (s.workers.getD t default).opIdx)
            (valueGen (genKey cfg t (s.workers.getD t default).opIdx)) ∧
        ((step cfg M valueGen (step cfg M valueGen s t) t).workers.getD t
            default).localHits = (s.workers.getD t default).localHits ∧
        ((step cfg M valueGen (step cfg M valueGen s t) t).workers.getD t
            default).setCount = (s.workers.getD t default).setCount + 1 ∧
        ((step cfg M valueGen (step cfg M valueGen s t) t).workers.getD t
            default).opIdx = (s.workers.getD t default).opIdx + 1)) := by
  refine ⟨?_, ?_, ?_⟩
  · intro t ht
    exact (completed_worker_state cfg M valueGen cache₀ sched hc t ht).2.2.2
  · have hall : ∀ x ∈ (run cfg M valueGen cache₀ sched).workers.map
        ThreadState.opIdx, x = cfg.opsPerThread := by
      intro x hx
      obtain ⟨ts, hts, rfl⟩ := List.mem_map.mp hx
      have hP : ∀ y ∈ (run cfg M valueGen cache₀ sched).workers,
          ThreadState.opIdx y = cfg.opsPerThread := by
        apply forall_mem_of_forall_getD _ default
        intro i hi
        have hi' : i < cfg.threads := by
          rw [← (run_GInv cfg M valueGen cache₀ sched).len]
          exact hi
        exact (completed_worker_state cfg M valueGen cache₀ sched hc i hi').1
      exact hP ts hts
    rw [sum_const_of_mem _ _ hall, List.length_map,
      (run_GInv cfg M valueGen cache₀ sched).len]
  · intro s t ht htl hp hi
    constructor
    · intro v hg
      have heq := step_hit cfg M valueGen s t v ht hp hi hg
      have hgd : (step cfg M valueGen s t).workers.getD t default =
          { s.workers.getD t default with
            localUnique := insert (genKey cfg t (s.workers.getD t default).opIdx)
              (s.workers.getD t default).localUnique
            localHits := (s.workers.getD t default).localHits + 1
            opIdx := (s.workers.getD t default).opIdx + 1 } := by
        rw [heq]
        exact getD_set_self _ _ _ _ htl
      refine ⟨by rw [heq], ?_, ?_, ?_⟩
      · rw [hgd]
      · rw [hgd]
      · rw [hgd]
    · intro hg
      have heq := step_miss cfg M valueGen s t ht hp hi hg
      have hgd1 := step_getD_self_miss cfg M valueGen s t ht htl hp hi hg
      have hp1 : ((step cfg M valueGen s t).workers.getD t
          default).pendingSet =
          some (genKey cfg t (s.workers.getD t default).opIdx) := by
        rw [hgd1]
      have htl1 : t < (step cfg M valueGen s t).workers.length := by
        rw [step_len]
        exact htl
      have heq2 := step_pending cfg M valueGen (step cfg M valueGen s t) t
        (genKey cfg t (s.workers.getD t default).opIdx) ht hp1
      have hgd2 := step_getD_self_pending cfg M valueGen
        (step cfg M valueGen s t) t
        (genKey cfg t (s.workers.getD t default).opIdx) ht htl1 hp1
      refine ⟨?_, ?_, ?_, ?_⟩
      · rw [heq2, heq]
      · rw [hgd2]
        show ((step cfg M valueGen s t).workers.getD t default).localHits =
          (s.workers.getD t default).localHits
        rw [hgd1]
      · rw [hgd2]
        show ((step cfg M valueGen s t).workers.getD t default).setCount + 1 =
          (s.workers.getD t default).setCount + 1
        rw [hgd1]
      · rw [hgd2]
        show ((step cfg M valueGen s t).workers.getD t default).opIdx + 1 =
          (s.workers.getD t default).opIdx + 1
        rw [hgd1]

theorem claim_c5_worker_loop_witness :
    completedRun progConfig
        (run progConfig unitModel unitValue () (seqSched progConfig)) ∧
      0 < progConfig.threads ∧
      ((run progConfig unitModel unitValue ()
          (seqSched progConfig)).workers.getD 0 default).localHits +
        ((run progConfig unitModel unitValue ()
          (seqSched progConfig)).workers.getD 0 default).setCount =
        progConfig.opsPerThread :=
  ⟨seqSched_completes progConfig, by decide,
    (claim_c5_worker_loop progConfig unitModel unitValue ()
      (seqSched progConfig) (seqSched_completes progConfig)).1 0 (by decide)⟩

theorem genKey_cfg8 (t j : ℕ) (ht : t < 2) (hj : j < 4) :
    genKey cfg8 t j = j + 4 * t := by
  show (j + t * 4) % (4 * 2) = j + 4 * t
  omega

theorem c8_step {σ V : Type} (M : CacheModel σ V) (mem : σ → ℕ → Prop)
    (hget : ∀ s k v, M.get s k = some v → mem s k)
    (hset : ∀ s k v k', mem (M.set s k v) k' → k' = k ∨ mem s k')
    (valueGen : ℕ → V) (s : RunState σ) (t : ℕ)
    (hG : GInv cfg8 s) (hP : C8Inv mem s) :
    C8Inv mem (step cfg8 M valueGen s t) := by
  by_cases ht : t < cfg8.threads
  · have ht2 : t < 2 := ht
    have htl : t < s.workers.length := by rw [hG.len]; exact ht
    have hw := hG.winv t ht
    cases hp : (s.workers.getD t default).pendingSet with
    | some k =>
      have heq := step_pending cfg8 M valueGen s t k ht hp
      obtain ⟨hk, hilt⟩ := hw.pending_eq k hp
      have hilt4 : (s.workers.getD t default).opIdx < 4 := hilt
      have hgd := step_getD_self_pending cfg8 M valueGen s t k ht htl hp
      constructor
      · intro u hu
        by_cases hut : u = t
        · subst hut
          rw [hgd]
          exact hP.1 u hu
        · rw [step_getD_other cfg8 M valueGen s t u hut]
          exact hP.1 u hu
      · intro k' hmem
        have hcache : (step cfg8 M valueGen s t).cache =
            M.set s.cache k (valueGen k) := by rw [heq]
        rw [hcache] at hmem
        rcases hset _ _ _ _ hmem with rfl | hold
        · refine ⟨t, (s.workers.getD t default).opIdx, ht2, hilt4, ?_, ?_⟩
          · rw [hk]
            exact genKey_cfg8 t _ ht2 hilt4
          · rw [hgd]
            show (s.workers.getD t default).opIdx <
              (s.workers.getD t default).opIdx + 1
            omega
        · obtain ⟨t', j, ht', hj, hkeq, hjlt⟩ := hP.2 k' hold
          refine ⟨t', j, ht', hj, hkeq, ?_⟩
          by_cases hut : t' = t
          · subst hut
            rw [hgd]
            show j < (s.workers.getD t' default).opIdx + 1
            omega
          · rw [step_getD_other cfg8 M valueGen s t t' hut]
            exact hjlt
    | none =>
      by_cases hi : (s.workers.getD t default).opIdx < cfg8.opsPerThread
      · have hi4 : (s.workers.getD t default).opIdx < 4 := hi
        cases hg : M.get s.cache (genKey cfg8 t (s.workers.getD t default).opIdx) with
        | some v =>
          exfalso
          have hmem := hget _ _ _ hg
          obtain ⟨t', j, ht', hj, hkeq, hjlt⟩ := hP.2 _ hmem
          rw [genKey_cfg8 t _ ht2 hi4] at hkeq
          have ht'' : t' = t := by omega
          subst ht''
          have hj' : j = (s.workers.getD t' default).opIdx := by omega
          omega
        | none =>
          have heq := step_miss cfg8 M valueGen s t ht hp hi hg
          have hgd := step_getD_self_miss cfg8 M valueGen s t ht htl hp hi hg
          constructor
          · intro u hu
            by_cases hut : u = t
            · subst hut
              rw [hgd]
              exact hP.1 u hu
            · rw [step_getD_other cfg8 M valueGen s t u hut]
              exact hP.1 u hu
          · intro k' hmem
            have hcache : (step cfg8 M valueGen s t).cache = s.cache := by
              rw [heq]
            rw [hcache] at hmem
            obtain ⟨t', j, ht', hj, hkeq, hjlt⟩ := hP.2 k' hmem
            refine ⟨t', j, ht', hj, hkeq, ?_⟩
            by_cases hut : t' = t
            · subst hut
              rw [hgd]
              exact hjlt
            · rw [step_getD_other cfg8 M valueGen s t t' hut]
              exact hjlt
      · cases hm : (s.workers.getD t default).merged with
        | true =>
          rw [step_done cfg8 M valueGen s t ht hp hi hm]
          exact hP
        | false =>
          have heq := step_merge cfg8 M valueGen s t ht hp hi hm
          have hgd := step_getD_self_merge cfg8 M valueGen s t ht htl hp hi hm
          constructor
          · intro u hu
            by_cases hut : u = t
            · subst hut
              rw [hgd]
              exact hP.1 u hu
            · rw [step_getD_other cfg8 M valueGen s t u hut]
              exact hP.1 u hu
          · intro k' hmem
            have hcache : (step cfg8 M valueGen s t).cache = s.cache := by
              rw [heq]
            rw [hcache] at hmem
            obtain ⟨t', j, ht', hj, hkeq, hjlt⟩ := hP.2 k' hmem
            refine ⟨t', j, ht', hj, hkeq, ?_⟩
            by_cases hut : t' = t
            · subst hut
              rw [hgd]
              exact hjlt
            · rw [step_getD_other cfg8 M valueGen s t t' hut]
              exact hjlt
  · rw [step_oob cfg8 M valueGen s t ht]
    exact hP

theorem c8_run_inv {σ V : Type} (M : CacheModel σ V) (mem : σ → ℕ → Prop)
    (hget : ∀ s k v, M.get s k = some v → mem s k)
    (hset : ∀ s k v k', mem (M.set s k v) k' → k' = k ∨ mem s k')
    (valueGen : ℕ → V) (cache₀ : σ) (hinit : ∀ k, ¬ mem cache₀ k)
    (sched : List ℕ) :
    C8Inv mem (run cfg8 M valueGen cache₀ sched) := by
  have hfold : ∀ (l : List ℕ) (s : RunState σ), GInv cfg8 s → C8Inv mem s →
      C8Inv mem (l.foldl (step cfg8 M valueGen) s) := by
    intro l
    induction l with
    | nil => intro s _ h; exact h
    | cons a rest ih =>
      intro s hG hP
      simp only [List.foldl_cons]
      exact ih _ (step_GInv _ _ _ _ _ hG)
        (c8_step M mem hget hset valueGen s a hG hP)
  apply hfold sched (initState cfg8 cache₀) (initState_GInv _ _)
  constructor
  · intro t ht
    have ht' : t < cfg8.threads := ht
    rw [initState, getD_replicate cfg8.threads t default default ht']
    rfl
  · intro k hk
    exact absurd hk (hinit k)

/-- C8: for capacity 4, 2 threads and 4 operations per thread, starting
from an empty cache (no key is a member initially; `mem` abstracts the
backend's key-membership, growing only through `set_key`): no worker ever
registers a hit under any interleaving, and on any completed run worker 0
touched exactly the keys {0,1,2,3}, worker 1 exactly {4,5,6,7}, the
record's hit_rate is 0 and total_entries is 8. -/
theorem claim_c8_end_to_end {σ V : Type} (M : CacheModel σ V)
    (mem : σ → ℕ → Prop) (valueGen : ℕ → V) (cache₀ : σ) (sched : List ℕ)
    (name : String) (em : ℕ) (es : ℚ) (im fm : Option ℕ)
    (hget : ∀ s k v, M.get s k = some v → mem s k)
    (hset : ∀ s k v k', mem (M.set s k v) k' → k' = k ∨ mem s k')
    (hinit : ∀ k, ¬ mem cache₀ k) :
    (∀ t, t < cfg8.threads →
      ((run cfg8 M valueGen cache₀ sched).workers.getD t default).localHits
        = 0) ∧
    (completedRun cfg8 (run cfg8 M valueGen cache₀ sched) →
      ((run cfg8 M valueGen cache₀ sched).workers.getD 0 default).localUnique
          = ({0, 1, 2, 3} : Finset ℕ) ∧
        ((run cfg8 M valueGen cache₀ sched).workers.getD 1
          default).localUnique = ({4, 5, 6, 7} : Finset ℕ) ∧
        (benchCache cfg8 M valueGen cache₀ sched name em es im fm).hit_rate
          = 0 ∧
        (benchCache cfg8 M valueGen cache₀ sched name em es im fm).total_entries
          = 8) := by
  have hinv := c8_run_inv M mem hget hset valueGen cache₀ hinit sched
  refine ⟨hinv.1, ?_⟩
  intro hc
  have h0 := (completed_worker_state cfg8 M valueGen cache₀ sched hc 0
    (by decide)).2.2.1
  have h1 := (completed_worker_state cfg8 M valueGen cache₀ sched hc 1
    (by decide)).2.2.1
  refine ⟨by rw [h0]; decide, by rw [h1]; decide, ?_, ?_⟩
  · have heq : (benchCache cfg8 M valueGen cache₀ sched name em es im fm).hit_rate
        = (((run cfg8 M valueGen cache₀ sched).hitCounter : ℚ)) /
          ((cfg8.threads * cfg8.opsPerThread : ℕ) : ℚ) := rfl
    have hz : (run cfg8 M valueGen cache₀ sched).hitCounter = 0 := by
      rw [completed_hitCounter cfg8 M valueGen cache₀ sched hc]
      rw [sum_const_of_mem _ 0 ?_]
      · rw [Nat.mul_zero]
      · intro x hx
        obtain ⟨ts, hts, rfl⟩ := List.mem_map.mp hx
        have hP : ∀ y ∈ (run cfg8 M valueGen cache₀ sched).workers,
            ThreadState.localHits y = 0 := by
          apply forall_mem_of_forall_getD _ default
          intro i hi
          have hi' : i < cfg8.threads := by
            rw [← (run_GInv cfg8 M valueGen cache₀ sched).len]
            exact hi
          exact hinv.1 i hi'
        exact hP ts hts
    rw [heq, hz]
    norm_num
  · rw [completed_total_entries cfg8 M valueGen cache₀ sched name em es im fm hc]
    decide

theorem claim_c8_end_to_end_witness :
    completedRun cfg8 (run cfg8 unitModel unitValue () (seqSched cfg8)) ∧
      (benchCache cfg8 unitModel unitValue () (seqSched cfg8) "bench" 0 0
        none none).hit_rate = 0 ∧
      (benchCache cfg8 unitModel unitValue () (seqSched cfg8) "bench" 0 0
        none none).total_entries = 8 := by
  have hc := seqSched_completes cfg8
  have h := claim_c8_end_to_end unitModel (fun _ _ => False) unitValue ()
    (seqSched cfg8) "bench" 0 0 none none
    (fun s k v hg => Option.noConfusion hg)
    (fun s k v k' hf => hf.elim)
    (fun k hf => hf)
  exact ⟨hc, (h.2 hc).2.2.1, (h.2 hc).2.2.2⟩

theorem genKey_prog (t : ℕ) : genKey progConfig t = fun i => i % 20000 := by
  funext i
  show (i + t * 100000) % (10000 * 2) = i % 20000
  rw [show i + t * 100000 = i + t * 5 * 20000 by ring]
  exact Nat.add_mul_mod_self_right i (t * 5) 20000

theorem image_mod (m n : ℕ) (hm : 0 < m) (hn : 0 < n) :
    (Finset.range (m * n)).image (fun i => i % n) = Finset.range n := by
  ext k
  simp only [Finset.mem_image, Finset.mem_range]
  constructor
  · rintro ⟨i, _, rfl⟩
    exact Nat.mod_lt _ hn
  · intro hk
    refine ⟨k, ?_, Nat.mod_eq_of_lt hk⟩
    calc k < n := hk
    _ = 1 * n := (Nat.one_mul n).symm
    _ ≤ m * n := Nat.mul_le_mul_right n hm

theorem filter_mod_card (m n k : ℕ) (hn : 0 < n) (hk : k < n) :
    ((Finset.range (m * n)).filter (fun i => i % n = k)).card = m := by
  have himg : (Finset.range (m * n)).filter (fun i => i % n = k) =
      (Finset.range m).image (fun j => j * n + k) := by
    ext i
    simp only [Finset.mem_filter, Finset.mem_range, Finset.mem_image]
    constructor
    · rintro ⟨hi, hmod⟩
      refine ⟨i / n, (Nat.div_lt_iff_lt_mul hn).mpr (by omega), ?_⟩
      have hdm : n * (i / n) + i % n = i := Nat.div_add_mod i n
      rw [Nat.mul_comm (i / n) n, ← hmod]
      exact hdm
    · rintro ⟨j, hj, rfl⟩
      constructor
      · have h1 : j * n + k < (j + 1) * n := by
          rw [Nat.succ_mul]
          omega
        have h2 : (j + 1) * n ≤ m * n := Nat.mul_le_mul_right n (by omega)
        omega
      · rw [Nat.add_comm, Nat.add_mul_mod_self_right]
        exact Nat.mod_eq_of_lt hk
  rw [himg, Finset.card_image_of_injective _ ?_, Finset.card_range]
  intro a b hab
  have hab' : a * n + k = b * n + k := hab
  have : a * n = b * n := by omega
  exact Nat.eq_of_mul_eq_mul_right hn this

/-- C9 (implicit): with the compiled constants (`CACHE_SIZE = 10000`,
`NUM_THREADS = 8`, `OPS_PER_THREAD = 100000`), `OPS_PER_THREAD` is an
exact multiple of `2 * CACHE_SIZE`, so every worker's key sequence covers
the whole key space `[0, 20000)` — each key exactly 5 times per worker —
the workers' key sets coincide, and on every completed run with any
backend `total_entries = 20000`. -/
theorem claim_c9_full_coverage {σ V : Type} (M : CacheModel σ V)
    (valueGen : ℕ → V) (cache₀ : σ) (sched : List ℕ) (name : String)
    (em : ℕ) (es : ℚ) (im fm : Option ℕ) :
    OPS_PER_THREAD % (2 * CACHE_SIZE) = 0 ∧
    (∀ t, (Finset.range OPS_PER_THREAD).image (genKey progConfig t) =
      Finset.range (2 * CACHE_SIZE)) ∧
    (∀ t k, k < 2 * CACHE_SIZE →
      ((Finset.range OPS_PER_THREAD).filter
        (fun i => genKey progConfig t i = k)).card = 5) ∧
    (∀ t t', (Finset.range OPS_PER_THREAD).image (genKey progConfig t) =
      (Finset.range OPS_PER_THREAD).image (genKey progConfig t')) ∧
    (completedRun progConfig (run progConfig M valueGen cache₀ sched) →
      (benchCache progConfig M valueGen cache₀ sched name em es im
        fm).total_entries = 20000) := by
  have hb : ∀ t, (Finset.range OPS_PER_THREAD).image (genKey progConfig t) =
      Finset.range (2 * CACHE_SIZE) := by
    intro t
    rw [genKey_prog t]
    exact image_mod 5 20000 (by omega) (by omega)
  refine ⟨by decide, hb, ?_, ?_, ?_⟩
  · intro t k hk
    have hk' : k < 20000 := hk
    rw [genKey_prog t]
    exact filter_mod_card 5 20000 k (by omega) hk'
  · intro t t'
    rw [hb t, hb t']
  · intro hc
    rw [completed_total_entries progConfig M valueGen cache₀ sched name em es
      im fm hc]
    have hcong : (Finset.range progConfig.threads).biUnion
        (fun t => (Finset.range progConfig.opsPerThread).image
          (genKey progConfig t)) =
        (Finset.range progConfig.threads).biUnion
          (fun _ => Finset.range (2 * CACHE_SIZE)) :=
      Finset.biUnion_congr rfl (fun t _ => hb t)
    rw [hcong]
    have hall : (Finset.range progConfig.threads).biUnion
        (fun _ => Finset.range (2 * CACHE_SIZE)) =
        Finset.range (2 * CACHE_SIZE) := by
      ext x
      simp only [Finset.mem_biUnion, Finset.mem_range]
      constructor
      · rintro ⟨t, _, hx⟩
        exact hx
      · intro hx
        exact ⟨0, by decide, hx⟩
    rw [hall, Finset.card_range]
    decide

theorem claim_c9_full_coverage_witness :
    completedRun progConfig
        (run progConfig unitModel unitValue () (seqSched progConfig)) ∧
      OPS_PER_THREAD % (2 * CACHE_SIZE) = 0 ∧
      (benchCache progConfig unitModel unitValue () (seqSched progConfig)
        "bench" 0 0 none none).total_entries = 20000 := by
  have h := claim_c9_full_coverage unitModel unitValue ()
    (seqSched progConfig) "bench" 0 0 none none
  exact ⟨seqSched_completes progConfig, h.1,
    h.2.2.2.2 (seqSched_completes progConfig)⟩

end CacheBench
